import Mathlib

/-
Verification of the KBFP strategy of libsemigroups (src/cong/kbfp.cc):
Knuth-Bendix completion followed by Froidure-Pin enumeration on the
quotient.  The strategy code is embedded shallowly below; the external
collaborators it drives (the rewriting engine RWS, the enumeration
engine Semigroup, the Congruence presentation data) are not part of the
sources and are modelled from their contracts in the specification.
-/

namespace Libsemigroups

/-- A word is a finite sequence of generator indices. -/
abbrev Word := List Nat

/-- Tri-state result type of decision queries (Congruence.DATA.result_t). -/
inductive Result
  | TRUE
  | FALSE
  | UNKNOWN
  deriving DecidableEq, Repr

/-- Modelled from the spec: the presentation and the two external engines
(RewritingEngine §4.1, EnumerationIndex §4.2) are not among the sources.
This structure packages the data they are built from: the generator count,
relation pairs and extra congruence pairs of the Congruence, whether the
congruence is defined over a concrete semigroup, the canonical-form
function and reduction order that the completed rewriting system
realizes, and the full quotient as the list of canonical forms in
discovery order (the finite-quotient case, the one on which enumeration
semantics are defined). -/
structure Model where
  nrgens : Nat
  relations : List (Word × Word)
  extra : List (Word × Word)
  congSg : Bool
  nf : Word → Word
  lt : Word → Word → Bool
  enumOrder : List Word

/-- Modelled from the spec (§4.1): the observable state of the rewriting
engine: the pairs fed so far via add_rules, in order, and whether
completion has finished without cancellation. -/
structure RWS where
  rules : List (Word × Word)
  confluent : Bool
  deriving DecidableEq, Repr

/-- Modelled from the spec (§4.1 add_rules): incorporates relation pairs in
order. -/
def RWS.add_rules (r : RWS) (ps : List (Word × Word)) : RWS :=
  { r with rules := r.rules ++ ps }

/-- Modelled from the spec (§4.1 complete): polls the cancellation signal;
if it is set, returns without reaching confluence; otherwise completion
finishes and the system becomes confluent.  Possible nontermination of
completion lies outside a total model; the completed case is the one the
claims quantify over. -/
def RWS.knuth_bendix (killed : Bool) (r : RWS) : RWS :=
  if killed then r else { r with confluent := true }

/-- True iff completion finished without cancellation (§4.1). -/
def RWS.is_confluent (r : RWS) : Bool := r.confluent

/-- Modelled from the spec (§4.1 rewrite): once confluent, canonicalization
is the pure deterministic function fixed by the model. -/
def RWS.rewrite (M : Model) (r : RWS) (w : Word) : Word := M.nf w

/-- Modelled from the spec (§4.1 less_than): the reduction order over
canonical forms fixed by the model. -/
def RWS.test_less_than (M : Model) (r : RWS) (w1 w2 : Word) : Bool := M.lt w1 w2

/-- Modelled from the spec (§6 word encoding): the conversion between the
two word encodings is a bijection; the model identifies them. -/
def RWS.word_to_rws_word (w : Word) : Word := w

/-- Index of the first occurrence of x in a list of words, none if absent. -/
def idxOf? : List Word → Word → Option Nat
  | [], _ => none
  | y :: ys, x => if y = x then some 0 else (idxOf? ys x).map (· + 1)

/-- Modelled from the spec (§4.2): the observable state of the enumeration
engine: how many elements of the quotient have been discovered so far and
the current batch-size hint.  The discovery order itself is fixed by the
model (Model.enumOrder). -/
structure Semigroup where
  size : Nat
  batchSize : Nat
  deriving DecidableEq, Repr

/-- Modelled from the spec (§4.2): the index is constructed from the
generators' canonical elements; initially exactly the distinct generators
are discovered.  The number 8192 models the engine's default batch size;
its value never matters. -/
def Semigroup.mk0 (M : Model) (gens : List Word) : Semigroup :=
  { size := min gens.dedup.length M.enumOrder.length, batchSize := 8192 }

/-- Count of discovered elements (§4.2 current_size). -/
def Semigroup.current_size (s : Semigroup) : Nat := s.size

/-- Batch-size hint for internal chunking (§4.2 set_batch_size). -/
def Semigroup.set_batch_size (s : Semigroup) (n : Nat) : Semigroup :=
  { s with batchSize := n }

/-- Modelled from the spec (§4.2 grow): enumerates by closure until the
count of discovered elements reaches the target or the quotient is fully
closed; when the cancellation signal is set no further growth happens. -/
def Semigroup.enumerate (M : Model) (killed : Bool) (tgt : Nat) (s : Semigroup) : Semigroup :=
  if killed then s
  else { s with size := max s.size (min tgt M.enumOrder.length) }

/-- Modelled from the spec (§4.2 class_index): the position of an element
among the already-discovered ones, none meaning UNDEFINED; lookup never
triggers discovery. -/
def Semigroup.position (M : Model) (s : Semigroup) (x : Word) : Option Nat :=
  idxOf? (M.enumOrder.take s.size) x

/-- Modelled from the spec (§4.2): the index is fully closed when every
element of the quotient has been discovered. -/
def Semigroup.closed (M : Model) (s : Semigroup) : Bool :=
  decide (M.enumOrder.length ≤ s.size)

/-- State of the KBFP strategy (src/cong/kbfp.cc): the observed shared
cancellation signal, the owned rewriting engine, and the enumeration
index once constructed (null pointer before). -/
structure KBFP where
  killed : Bool
  rws : RWS
  semigroup : Option Semigroup
  deriving DecidableEq, Repr

/-- Congruence.DATA.is_killed: reads the shared cancellation signal. -/
def KBFP.is_killed (st : KBFP) : Bool := st.killed

/-- Modelled from the spec (§4.3 is_done; the header is not among the
sources): done iff the index has closed the full quotient and the
instance was not cancelled. -/
def KBFP.is_done (M : Model) (st : KBFP) : Bool :=
  (match st.semigroup with
   | some s => Semigroup.closed M s
   | none => false) && !st.killed

/-- The scheduler's write of the shared cancellation signal (§5): the
signal is only ever set, never cleared. -/
def KBFP.kill (st : KBFP) : KBFP := { st with killed := true }

/-- A fresh strategy instance: signal clear, no rules fed, not confluent,
no index constructed. -/
def KBFP.initial : KBFP :=
  { killed := false
    rws := { rules := [], confluent := false }
    semigroup := none }

/-- Current size of the enumeration index, 0 before construction. -/
def KBFP.curSize (st : KBFP) : Nat :=
  match st.semigroup with
  | some s => s.size
  | none => 0

/-- Lines 31-36 of src/cong/kbfp.cc: really_delete_cont frees every element
of the container; the model counts the frees. -/
def really_delete_cont (cont : List Word) : Nat := cont.length

/-- Lines 44-68 of src/cong/kbfp.cc.  Asserts are modelled as none (fatal).
Within one modelled call the cancellation signal is constant; a signal set
mid-completion is modelled as the signal being set for the whole call,
which yields the same observable state (rules fed, not confluent, no
index built).  The element wrapped for generator i is its canonical form
(§2 data flow). -/
def KBFP.init (M : Model) (st : KBFP) : Option KBFP :=
  if st.semigroup.isSome then some st
  else
    let r1 := (st.rws.add_rules M.relations).add_rules M.extra
    if M.congSg && M.extra.isEmpty then none
    else
      let r2 := RWS.knuth_bendix st.killed r1
      if st.killed then some { st with rws := r2 }
      else if r2.is_confluent then
        let gens := (List.range M.nrgens).map (fun i => M.nf [i])
        some { st with rws := r2, semigroup := some (Semigroup.mk0 M gens) }
      else none

/-- Lines 44-68 instrumented with the allocation accounting of the
temporary generator-element buffer: the result together with the number
of generator elements allocated and the number freed during the call. -/
def KBFP.init_alloc (M : Model) (st : KBFP) : Option KBFP × Nat × Nat :=
  if st.semigroup.isSome then (some st, 0, 0)
  else
    let r1 := (st.rws.add_rules M.relations).add_rules M.extra
    if M.congSg && M.extra.isEmpty then (none, 0, 0)
    else
      let r2 := RWS.knuth_bendix st.killed r1
      if st.killed then (some { st with rws := r2 }, 0, 0)
      else if r2.is_confluent then
        let gens := (List.range M.nrgens).map (fun i => M.nf [i])
        (some { st with rws := r2, semigroup := some (Semigroup.mk0 M gens) },
          gens.length, really_delete_cont gens)
      else (none, 0, 0)

/-- Lines 70-84 of src/cong/kbfp.cc: the bounded run.  The entry assert and
the null dereference of the index are modelled as none. -/
def KBFP.run (M : Model) (steps : Nat) (st : KBFP) : Option KBFP :=
  if st.is_done M then none
  else
    match st.init M with
    | none => none
    | some st1 =>
      if !st1.killed then
        match st1.semigroup with
        | none => none
        | some s =>
          let s1 := s.set_batch_size steps
          let s2 := Semigroup.enumerate M st1.killed (s1.current_size + 1) s1
          some { st1 with semigroup := some s2 }
      else some st1

/-- Modelled from the spec: Congruence.LIMIT_MAX is the largest practical
step budget (the header defining it is not among the sources); its exact
value never matters. -/
def LIMIT_MAX : Nat := 18446744073709551615

/-- Termination measure of the unbounded run loop: how far the index is
from closing the quotient, with uninitialized states above everything. -/
def loopMeasure (M : Model) (st : KBFP) : Nat :=
  match st.semigroup with
  | none => M.enumOrder.length + 2
  | some s => M.enumOrder.length + 1 - s.size

/-- Lines 38-42 of src/cong/kbfp.cc: run to completion.  The loop
terminates in the model because each bounded run either grows the index
or ends the loop. -/
def KBFP.runFull (M : Model) (st : KBFP) : Option KBFP :=
  if h1 : (st.killed || st.is_done M) = true then some st
  else
    match h2 : st.run M LIMIT_MAX with
    | none => none
    | some st' => st'.runFull M
termination_by loopMeasure M st
decreasing_by
  simp only [Bool.or_eq_true, not_or, Bool.not_eq_true] at h1
  obtain ⟨hk, hd⟩ := h1
  cases hsg : st.semigroup with
  | some s =>
    have hlt : s.size < M.enumOrder.length := by
      simp [KBFP.is_done, hsg, hk, Semigroup.closed] at hd
      exact hd
    simp [KBFP.run, hd, KBFP.init, hsg, hk, Semigroup.set_batch_size,
      Semigroup.current_size, Semigroup.enumerate] at h2
    subst h2
    simp [loopMeasure, hsg]
    omega
  | none =>
    by_cases ha : (M.congSg && M.extra.isEmpty) = true
    · simp [KBFP.run, hd, KBFP.init, hsg, ha] at h2
    · simp [KBFP.run, hd, KBFP.init, hsg, hk, ha, RWS.knuth_bendix, RWS.is_confluent,
        Semigroup.set_batch_size, Semigroup.current_size, Semigroup.enumerate] at h2
      subst h2
      simp [loopMeasure, hsg, Semigroup.mk0]
      omega

/-- The fuel-indexed iteration described by the spec for the unbounded run:
repeatedly call the bounded run with the largest budget until done or
cancelled.  This is the second, spec-side definition that the refinement
claim compares with runFull. -/
def runSpecIter (M : Model) : Nat → KBFP → Option KBFP
  | 0, st => some st
  | n + 1, st =>
    if (st.killed || st.is_done M) = true then some st
    else
      match st.run M LIMIT_MAX with
      | none => none
      | some st' => runSpecIter M n st'

/-- Lines 86-96 of src/cong/kbfp.cc: canonicalize the word, look it up in
the index.  Both asserts (is_done on entry, position defined) are
modelled as none. -/
def KBFP.word_to_class_index (M : Model) (st : KBFP) (w : Word) : Option Nat :=
  if st.is_done M then
    match st.semigroup with
    | none => none
    | some s =>
      match Semigroup.position M s (RWS.rewrite M st.rws (RWS.word_to_rws_word w)) with
      | none => none
      | some pos => some pos
  else none

/-- Lines 98-109 of src/cong/kbfp.cc: ensure init, answer UNKNOWN when the
signal is set, otherwise compare canonical forms under the confluence
assert. -/
def KBFP.current_equals (M : Model) (st : KBFP) (w1 w2 : Word) : Option (Result × KBFP) :=
  match st.init M with
  | none => none
  | some st1 =>
    if st1.is_killed then some (Result.UNKNOWN, st1)
    else if st1.rws.is_confluent then
      some ((if RWS.rewrite M st1.rws (RWS.word_to_rws_word w1) =
                RWS.rewrite M st1.rws (RWS.word_to_rws_word w2)
             then Result.TRUE else Result.FALSE), st1)
    else none

/-- Lines 111-119 of src/cong/kbfp.cc: ensure init, then answer from the
reduction order under the confluence assert; no cancellation check. -/
def KBFP.current_less_than (M : Model) (st : KBFP) (w1 w2 : Word) : Option (Result × KBFP) :=
  match st.init M with
  | none => none
  | some st1 =>
    if st1.rws.is_confluent then
      some ((if RWS.test_less_than M st1.rws (RWS.word_to_rws_word w1)
                  (RWS.word_to_rws_word w2)
             then Result.TRUE else Result.FALSE), st1)
    else none

/-- A word over the presentation's alphabet. -/
def okWord (M : Model) (w : Word) : Bool := w.all (fun l => decide (l < M.nrgens))

/-- Soundness of the spec-modelled enumeration: the discovery order covers
the whole quotient, that is, the canonical form of every word over the
alphabet occurs in it. -/
def Model.Complete (M : Model) : Prop :=
  ∀ w : Word, okWord M w = true → M.nf w ∈ M.enumOrder

/-- Invariant of reachable strategy states: the index exists only after
completion reached confluence. -/
def KBFP.Inv (st : KBFP) : Prop := st.semigroup.isSome = true → st.rws.confluent = true

/-- A concrete one-generator model with a one-element quotient, used to
evaluate the theorems on explicit inputs. -/
def M0 : Model :=
  { nrgens := 1
    relations := [([0, 0], [0])]
    extra := []
    congSg := false
    nf := fun _ => []
    lt := fun _ _ => false
    enumOrder := [[]] }

/-- The state produced by a successful init of M0 from the fresh state. -/
def stI : KBFP :=
  { killed := false
    rws := { rules := [([0, 0], [0])], confluent := true }
    semigroup := some { size := 1, batchSize := 8192 } }

/-! ### Helper lemmas about init -/

theorem init_of_isSome (M : Model) (st : KBFP) (h : st.semigroup.isSome = true) :
    st.init M = some st := by
  simp [KBFP.init, h]

theorem init_killed_none (M : Model) (st : KBFP) (hsg : st.semigroup = none)
    (hk : st.killed = true) (ha : (M.congSg && M.extra.isEmpty) = false) :
    st.init M = some { st with
      rws := { rules := st.rws.rules ++ M.relations ++ M.extra,
               confluent := st.rws.confluent } } := by
  simp [KBFP.init, hsg, hk, ha, RWS.add_rules, RWS.knuth_bendix]

theorem init_not_killed_none (M : Model) (st : KBFP) (hsg : st.semigroup = none)
    (hk : st.killed = false) (ha : (M.congSg && M.extra.isEmpty) = false) :
    st.init M = some { st with
      rws := { rules := st.rws.rules ++ M.relations ++ M.extra, confluent := true },
      semigroup := some (Semigroup.mk0 M
        ((List.range M.nrgens).map (fun i => M.nf [i]))) } := by
  simp [KBFP.init, hsg, hk, ha, RWS.add_rules, RWS.knuth_bendix, RWS.is_confluent]

theorem init_preserves_killed (M : Model) (st st1 : KBFP) (h : st.init M = some st1) :
    st1.killed = st.killed := by
  simp only [KBFP.init] at h
  repeat' split at h
  all_goals first
    | exact Option.noConfusion h
    | (injection h with h; subst h; rfl)

theorem init_confluent_of_not_killed (M : Model) (st st1 : KBFP) (hInv : st.Inv)
    (hk : st.killed = false) (h : st.init M = some st1) :
    st1.rws.confluent = true ∧ st1.semigroup.isSome = true := by
  by_cases hsg : st.semigroup.isSome = true
  · rw [init_of_isSome M st hsg] at h
    injection h with h
    subst h
    exact ⟨hInv hsg, hsg⟩
  · have hsg' : st.semigroup = none := by
      cases hsgv : st.semigroup
      · rfl
      · rw [hsgv] at hsg; simp at hsg
    by_cases ha : (M.congSg && M.extra.isEmpty) = true
    · rw [KBFP.init] at h
      simp [hsg', ha] at h
    · rw [init_not_killed_none M st hsg' hk (by simpa using ha)] at h
      injection h with h
      subst h
      exact ⟨rfl, rfl⟩

theorem init_killed_frame (M : Model) (st st1 : KBFP) (hk : st.killed = true)
    (h : st.init M = some st1) :
    st1.semigroup = st.semigroup ∧ st1.killed = true ∧
      st1.rws.confluent = st.rws.confluent := by
  by_cases hsg : st.semigroup.isSome = true
  · rw [init_of_isSome M st hsg] at h
    injection h with h
    subst h
    exact ⟨rfl, hk, rfl⟩
  · have hsg' : st.semigroup = none := by
      cases hsgv : st.semigroup
      · rfl
      · rw [hsgv] at hsg; simp at hsg
    by_cases ha : (M.congSg && M.extra.isEmpty) = true
    · rw [KBFP.init] at h
      simp [hsg', ha] at h
    · rw [init_killed_none M st hsg' hk (by simpa using ha)] at h
      injection h with h
      subst h
      exact ⟨rfl, hk, rfl⟩

/-! ### Lemmas about idxOf? -/

theorem idxOf?_isSome_of_mem (l : List Word) (x : Word) (h : x ∈ l) :
    (idxOf? l x).isSome = true := by
  induction l with
  | nil => cases h
  | cons y ys ih =>
    by_cases hxy : y = x
    · simp [idxOf?, hxy]
    · rcases List.mem_cons.mp h with h1 | h1
      · exact absurd h1.symm hxy
      · cases hi : idxOf? ys x with
        | none => rw [hi] at ih; simp at ih; exact absurd h1 ih
        | some j => simp [idxOf?, hxy, hi]

theorem idxOf?_getElem (l : List Word) (x : Word) (i : Nat)
    (h : idxOf? l x = some i) : l[i]? = some x := by
  induction l generalizing i with
  | nil => simp [idxOf?] at h
  | cons y ys ih =>
    by_cases hxy : y = x
    · simp [idxOf?, hxy] at h
      subst h
      simp [hxy]
    · simp only [idxOf?, hxy, if_false] at h
      cases hi : idxOf? ys x with
      | none => rw [hi] at h; simp at h
      | some j =>
        rw [hi] at h
        simp at h
        subst h
        simpa using ih j hi

/-! ### The measure decrease of the bounded run, and loop unfoldings -/

theorem run_measure_lt (M : Model) (steps : Nat) (st st' : KBFP)
    (hk : st.killed = false) (hd : st.is_done M = false)
    (h2 : st.run M steps = some st') :
    loopMeasure M st' < loopMeasure M st := by
  cases hsg : st.semigroup with
  | some s =>
    have hlt : s.size < M.enumOrder.length := by
      simp [KBFP.is_done, hsg, hk, Semigroup.closed] at hd
      exact hd
    simp [KBFP.run, hd, KBFP.init, hsg, hk, Semigroup.set_batch_size,
      Semigroup.current_size, Semigroup.enumerate] at h2
    subst h2
    simp [loopMeasure, hsg]
    omega
  | none =>
    by_cases ha : (M.congSg && M.extra.isEmpty) = true
    · simp [KBFP.run, hd, KBFP.init, hsg, ha] at h2
    · simp [KBFP.run, hd, KBFP.init, hsg, hk, ha, RWS.knuth_bendix, RWS.is_confluent,
        Semigroup.set_batch_size, Semigroup.current_size, Semigroup.enumerate] at h2
      subst h2
      simp [loopMeasure, hsg, Semigroup.mk0]
      omega

theorem runFull_stop (M : Model) (st : KBFP)
    (h : (st.killed || st.is_done M) = true) : st.runFull M = some st := by
  unfold KBFP.runFull
  rw [dif_pos h]

theorem runFull_none (M : Model) (st : KBFP)
    (h : (st.killed || st.is_done M) = false)
    (h2 : st.run M LIMIT_MAX = none) : st.runFull M = none := by
  unfold KBFP.runFull
  rw [dif_neg (by simp [h])]
  split
  · rfl
  · rename_i st'' heq
    rw [h2] at heq
    exact Option.noConfusion heq

theorem runFull_go (M : Model) (st st' : KBFP)
    (h : (st.killed || st.is_done M) = false)
    (h2 : st.run M LIMIT_MAX = some st') : st.runFull M = st'.runFull M := by
  rw [KBFP.runFull.eq_def]
  rw [dif_neg (by simp [h])]
  split
  · rename_i heq
    rw [h2] at heq
    exact Option.noConfusion heq
  · rename_i st'' heq
    rw [h2] at heq
    injection heq with heq
    rw [heq]

theorem runSpecIter_stop (M : Model) (st : KBFP)
    (h : (st.killed || st.is_done M) = true) :
    ∀ m, runSpecIter M m st = some st := by
  intro m
  cases m with
  | zero => rfl
  | succ m => simp [runSpecIter, h]

/-! ### Claim theorems -/

/-- C9: on every exit path of init, successful or cancelled, the temporary
buffer of generator elements is fully released before the call returns:
the number of elements allocated equals the number freed, and the
instrumented init agrees with init itself. -/
theorem init_releases_generator_buffer (M : Model) (st : KBFP) :
    (st.init_alloc M).2.1 = (st.init_alloc M).2.2 ∧
    (st.init_alloc M).1 = st.init M := by
  simp only [KBFP.init_alloc, KBFP.init, really_delete_cont]
  repeat' split
  all_goals simp

/-- C7: the order query ensures init has run and answers TRUE or FALSE
directly from the engine order; it never answers UNKNOWN, and whenever the
system is not confluent, in particular when cancelled before confluence,
it dies on the confluence assert instead of special-casing cancellation
the way equals does. -/
theorem less_than_never_unknown (M : Model) (st st1 : KBFP) (w1 w2 : Word)
    (h : st.init M = some st1) :
    st.current_less_than M w1 w2 =
      (if st1.rws.confluent then
        some ((if M.lt w1 w2 then Result.TRUE else Result.FALSE), st1)
      else none) ∧
    ∀ r st2, st.current_less_than M w1 w2 = some (r, st2) → r ≠ Result.UNKNOWN := by
  have heq : st.current_less_than M w1 w2 =
      (if st1.rws.confluent then
        some ((if M.lt w1 w2 then Result.TRUE else Result.FALSE), st1)
      else none) := by
    simp only [KBFP.current_less_than, h, RWS.is_confluent, RWS.test_less_than,
      RWS.word_to_rws_word]
  refine ⟨heq, ?_⟩
  intro r st2 hr
  rw [heq] at hr
  split at hr
  · injection hr with hr
    have hfst : (if M.lt w1 w2 then Result.TRUE else Result.FALSE) = r :=
      congrArg Prod.fst hr
    intro hu
    rw [hu] at hfst
    split at hfst
    · exact Result.noConfusion hfst
    · exact Result.noConfusion hfst
  · exact Option.noConfusion hr

/-- C7 witness: concrete run of the order query after a successful init. -/
theorem less_than_never_unknown_witness :
    KBFP.current_less_than M0 KBFP.initial [] [0] = some (Result.FALSE, stI) :=
  ((less_than_never_unknown M0 KBFP.initial stI [] [0] (by decide)).1).trans (by decide)

/-- C1 counterexample: the state reached by a successful init followed by
the scheduler setting the cancellation signal is confluent yet cancelled;
there equals answers UNKNOWN although the claim, whose UNKNOWN case is
reserved for cancellation before confluence, demands TRUE for two words
with equal canonical forms. -/
theorem equals_unknown_after_confluence_cex :
    KBFP.init M0 KBFP.initial = some stI ∧
    (KBFP.kill stI).killed = true ∧ (KBFP.kill stI).rws.confluent = true ∧
    M0.nf [] = M0.nf [] ∧
    (KBFP.current_equals M0 (KBFP.kill stI) [] []).map Prod.fst =
      some Result.UNKNOWN := by
  exact ⟨by decide, rfl, rfl, rfl, by decide⟩

/-- C1 amended: equals ensures init has run and answers UNKNOWN exactly
when the cancellation signal is observed set at the check after init,
regardless of whether confluence had been reached by then; in every other
case it answers TRUE exactly when the canonical forms of the two words
agree and FALSE otherwise, independently of any enumeration growth. -/
theorem equals_unknown_iff_killed (M : Model) (st st1 : KBFP) (w1 w2 : Word)
    (hInv : st.Inv) (h : st.init M = some st1) :
    st.current_equals M w1 w2 =
      some ((if st1.killed = true then Result.UNKNOWN
             else if M.nf w1 = M.nf w2 then Result.TRUE else Result.FALSE), st1) := by
  by_cases hk1 : st1.killed = true
  · simp [KBFP.current_equals, h, KBFP.is_killed, hk1]
  · have hk : st.killed = false := by
      rw [← init_preserves_killed M st st1 h]
      simpa using hk1
    have hc := (init_confluent_of_not_killed M st st1 hInv hk h).1
    simp [KBFP.current_equals, h, KBFP.is_killed, hk1, RWS.is_confluent, hc,
      RWS.rewrite, RWS.word_to_rws_word]

/-- C1 witness: equals decided TRUE from canonical forms on a concrete
uncancelled instance. -/
theorem equals_unknown_iff_killed_witness :
    KBFP.current_equals M0 KBFP.initial [0] [0, 0] = some (Result.TRUE, stI) := by
  have h := equals_unknown_iff_killed M0 KBFP.initial stI [0] [0, 0]
    (by intro hs; exact absurd hs (by decide)) (by decide)
  rw [h]
  decide

/-- C5 counterexample: with the cancellation signal set, a first init is
cancelled before the index is built, and a second call feeds the relation
pairs to the rewriting engine a second time, so two calls do not produce
the state one call produces. -/
theorem init_refeeds_after_cancel_cex :
    KBFP.init M0 (KBFP.kill KBFP.initial) =
      some { killed := true, rws := { rules := [([0, 0], [0])], confluent := false },
             semigroup := none } ∧
    KBFP.init M0 { killed := true,
                   rws := { rules := [([0, 0], [0])], confluent := false },
                   semigroup := none } =
      some { killed := true,
             rws := { rules := [([0, 0], [0]), ([0, 0], [0])], confluent := false },
             semigroup := none } ∧
    (KBFP.init M0 (KBFP.kill KBFP.initial)).bind (KBFP.init M0) ≠
      KBFP.init M0 (KBFP.kill KBFP.initial) := by
  exact ⟨by decide, by decide, by decide⟩

/-- C5 amended: init is a no-op on any instance whose index has been
constructed, so once a first call succeeded in building the index a
second call returns the identical state and feeds nothing to the
rewriting engine again; only after a cancelled first call, which leaves
the index unbuilt, does a second call feed the pairs again. -/
theorem init_noop_once_built (M : Model) (st st1 : KBFP)
    (h : st.init M = some st1) (hsg : st1.semigroup.isSome = true) :
    st1.init M = some st1 :=
  init_of_isSome M st1 hsg

/-- C5 witness: after the successful first init, a second call returns the
same state. -/
theorem init_noop_once_built_witness : KBFP.init M0 stI = some stI :=
  init_noop_once_built M0 KBFP.initial stI (by decide) (by decide)

/-- C2: a bounded run on an instance that is neither cancelled nor done
returns a state whose index carries the requested batch size; on an
already constructed index the size grows by exactly the one guaranteed
unit, and in every case the current size strictly increases unless the
quotient is already fully closed. -/
theorem run_progress (M : Model) (steps : Nat) (st st' : KBFP)
    (hk : st.killed = false) (hd : st.is_done M = false)
    (hr : st.run M steps = some st') :
    (∃ s', st'.semigroup = some s' ∧ s'.batchSize = steps) ∧
    (∀ s, st.semigroup = some s →
      st'.semigroup = some { size := s.size + 1, batchSize := steps }) ∧
    (st.curSize < st'.curSize ∨ M.enumOrder.length ≤ st'.curSize) := by
  cases hsg : st.semigroup with
  | some s =>
    have hlt : s.size < M.enumOrder.length := by
      simp [KBFP.is_done, hsg, hk, Semigroup.closed] at hd
      exact hd
    simp [KBFP.run, hd, KBFP.init, hsg, hk, Semigroup.set_batch_size,
      Semigroup.current_size, Semigroup.enumerate] at hr
    subst hr
    refine ⟨⟨_, rfl, rfl⟩, ?_, ?_⟩
    · intro s0 hs0
      injection hs0 with hs0
      subst hs0
      simp only [Option.some.injEq, Semigroup.mk.injEq]
      constructor
      · omega
      · trivial
    · simp [KBFP.curSize, hsg]
      omega
  | none =>
    by_cases ha : (M.congSg && M.extra.isEmpty) = true
    · simp [KBFP.run, hd, KBFP.init, hsg, ha] at hr
    · simp [KBFP.run, hd, KBFP.init, hsg, hk, ha, RWS.knuth_bendix, RWS.is_confluent,
        Semigroup.set_batch_size, Semigroup.current_size, Semigroup.enumerate] at hr
      subst hr
      refine ⟨⟨_, rfl, rfl⟩, ?_, ?_⟩
      · intro s0 hs0
        exact Option.noConfusion hs0
      · simp [KBFP.curSize, hsg, Semigroup.mk0]
        omega

/-- C2 witness: a bounded run from the fresh uninitialized state. -/
theorem run_progress_witness :
    (∃ s', ({ killed := false,
              rws := { rules := [([0, 0], [0])], confluent := true },
              semigroup := some { size := 1, batchSize := 5 } } : KBFP).semigroup =
        some s' ∧ s'.batchSize = 5) ∧
    (∀ s, KBFP.initial.semigroup = some s →
      ({ killed := false,
         rws := { rules := [([0, 0], [0])], confluent := true },
         semigroup := some { size := 1, batchSize := 5 } } : KBFP).semigroup =
        some { size := s.size + 1, batchSize := 5 }) ∧
    (KBFP.initial.curSize <
        ({ killed := false,
           rws := { rules := [([0, 0], [0])], confluent := true },
           semigroup := some { size := 1, batchSize := 5 } } : KBFP).curSize ∨
      M0.enumOrder.length ≤
        ({ killed := false,
           rws := { rules := [([0, 0], [0])], confluent := true },
           semigroup := some { size := 1, batchSize := 5 } } : KBFP).curSize) :=
  run_progress M0 5 KBFP.initial
    { killed := false, rws := { rules := [([0, 0], [0])], confluent := true },
      semigroup := some { size := 1, batchSize := 5 } }
    (by decide) (by decide) (by decide)

/-- C6: when the cancellation signal is set before the first init, init
returns (it is a total function of the model state) without constructing
the index, the instance never reports done, and every equals query from
the resulting state answers UNKNOWN and again leaves no index and a
cancelled, not-done state. -/
theorem init_cancelled_before_first_call (M : Model) (st : KBFP)
    (hk : st.killed = true) (hsg : st.semigroup = none)
    (ha : (M.congSg && M.extra.isEmpty) = false) :
    ∃ st1, st.init M = some st1 ∧ st1.semigroup = none ∧ st1.killed = true ∧
      st1.is_done M = false ∧
      ∀ w1 w2 : Word, ∃ st2,
        st1.current_equals M w1 w2 = some (Result.UNKNOWN, st2) ∧
        st2.semigroup = none ∧ st2.killed = true ∧ st2.is_done M = false := by
  cases hi : st.init M with
  | none =>
    rw [init_killed_none M st hsg hk ha] at hi
    exact Option.noConfusion hi
  | some st1 =>
    obtain ⟨hf1, hf2, hf3⟩ := init_killed_frame M st st1 hk hi
    have hsg1 : st1.semigroup = none := hf1.trans hsg
    refine ⟨st1, rfl, hsg1, hf2, by simp [KBFP.is_done, hf2], ?_⟩
    intro w1 w2
    cases hi2 : st1.init M with
    | none =>
      rw [init_killed_none M st1 hsg1 hf2 ha] at hi2
      exact Option.noConfusion hi2
    | some st2 =>
      obtain ⟨hg1, hg2, hg3⟩ := init_killed_frame M st1 st2 hf2 hi2
      refine ⟨st2, ?_, hg1.trans hsg1, hg2, by simp [KBFP.is_done, hg2]⟩
      simp [KBFP.current_equals, hi2, KBFP.is_killed, hg2]

/-- C6 witness: concrete cancelled-before-init run. -/
theorem init_cancelled_before_first_call_witness :
    ∃ st1, KBFP.init M0 (KBFP.kill KBFP.initial) = some st1 ∧
      st1.semigroup = none ∧ st1.killed = true ∧
      st1.is_done M0 = false ∧
      ∀ w1 w2 : Word, ∃ st2,
        KBFP.current_equals M0 st1 w1 w2 = some (Result.UNKNOWN, st2) ∧
        st2.semigroup = none ∧ st2.killed = true ∧ st2.is_done M0 = false :=
  init_cancelled_before_first_call M0 (KBFP.kill KBFP.initial)
    (by decide) (by decide) (by decide)

/-- C10: a bounded run that observes the cancellation signal set at the
check after init performs no enumeration at all: the index, its current
size, and every class-index answer are unchanged by the call. -/
theorem run_cancelled_frame (M : Model) (steps : Nat) (st st' : KBFP)
    (hk : st.killed = true) (hr : st.run M steps = some st') :
    st'.semigroup = st.semigroup ∧ st'.killed = true ∧
    st'.curSize = st.curSize ∧
    ∀ w, st'.word_to_class_index M w = st.word_to_class_index M w := by
  have hd : st.is_done M = false := by
    simp [KBFP.is_done, hk]
  cases hi : st.init M with
  | none => simp [KBFP.run, hd, hi] at hr
  | some st1 =>
    obtain ⟨hf1, hf2, hf3⟩ := init_killed_frame M st st1 hk hi
    simp only [KBFP.run, hd, Bool.false_eq_true, if_false, hi, hf2, Bool.not_true,
      Option.some.injEq] at hr
    subst hr
    refine ⟨hf1, hf2, ?_, ?_⟩
    · simp [KBFP.curSize, hf1]
    · intro w
      have hd1 : st1.is_done M = false := by
        simp [KBFP.is_done, hf2]
      simp [KBFP.word_to_class_index, hd1, hd]

/-- C10 witness: the cancelled bounded run on a concrete constructed
state changes nothing observable. -/
theorem run_cancelled_frame_witness :
    (KBFP.kill stI).semigroup = (KBFP.kill stI).semigroup ∧
    (KBFP.kill stI).killed = true ∧
    (KBFP.kill stI).curSize = (KBFP.kill stI).curSize ∧
    ∀ w, (KBFP.kill stI).word_to_class_index M0 w =
      (KBFP.kill stI).word_to_class_index M0 w :=
  run_cancelled_frame M0 7 (KBFP.kill stI) (KBFP.kill stI) (by decide) (by decide)

/-! ### Lemmas for the class-index claims -/

theorem is_done_elim (M : Model) (st : KBFP) (hd : st.is_done M = true) :
    ∃ s, st.semigroup = some s ∧ M.enumOrder.length ≤ s.size ∧
      st.killed = false := by
  rw [KBFP.is_done, Bool.and_eq_true] at hd
  obtain ⟨h1, h2⟩ := hd
  have hk : st.killed = false := by
    cases hkv : st.killed
    · rfl
    · rw [hkv] at h2; simp at h2
  cases hsg : st.semigroup with
  | none => rw [hsg] at h1; simp at h1
  | some s =>
    rw [hsg] at h1
    refine ⟨s, rfl, ?_, hk⟩
    simpa [Semigroup.closed] using h1

theorem w2ci_done (M : Model) (st : KBFP) (s : Semigroup) (w : Word)
    (hd : st.is_done M = true) (hsg : st.semigroup = some s) :
    st.word_to_class_index M w = idxOf? (M.enumOrder.take s.size) (M.nf w) := by
  simp only [KBFP.word_to_class_index, hd, if_true, hsg, Semigroup.position,
    RWS.rewrite, RWS.word_to_rws_word]
  cases hio : idxOf? (M.enumOrder.take s.size) (M.nf w) <;> simp

/-- C4: under the is_done precondition and the completeness of the
enumeration contract, the class index of every word over the alphabet is
defined: the UNDEFINED branch is unreachable. -/
theorem class_index_defined_once_done (M : Model) (st : KBFP) (w : Word)
    (hc : M.Complete) (hw : okWord M w = true) (hd : st.is_done M = true) :
    ∃ i, st.word_to_class_index M w = some i := by
  obtain ⟨s, hsg, hsz, hk⟩ := is_done_elim M st hd
  have htake : M.enumOrder.take s.size = M.enumOrder := List.take_of_length_le hsz
  have hmem : M.nf w ∈ M.enumOrder.take s.size := by
    rw [htake]; exact hc w hw
  have hsome := idxOf?_isSome_of_mem _ _ hmem
  cases hio : idxOf? (M.enumOrder.take s.size) (M.nf w) with
  | none => rw [hio] at hsome; simp at hsome
  | some i => exact ⟨i, by rw [w2ci_done M st s w hd hsg, hio]⟩

/-- C4 witness: the class index of a concrete word on a concrete done
instance. -/
theorem class_index_defined_once_done_witness :
    ∃ i, KBFP.word_to_class_index M0 stI [0] = some i :=
  class_index_defined_once_done M0 stI [0]
    (fun w _ => by simp [M0]) (by decide) (by decide)

/-- C3: once is_done holds, two words over the alphabet receive the same
class index exactly when equals answers TRUE on them. -/
theorem class_index_consistent_with_equals (M : Model) (st : KBFP) (w w' : Word)
    (hc : M.Complete) (hw : okWord M w = true) (hw' : okWord M w' = true)
    (hd : st.is_done M = true) (hInv : st.Inv) :
    (st.word_to_class_index M w = st.word_to_class_index M w') ↔
      st.current_equals M w w' = some (Result.TRUE, st) := by
  obtain ⟨s, hsg, hsz, hk⟩ := is_done_elim M st hd
  have htake : M.enumOrder.take s.size = M.enumOrder := List.take_of_length_le hsz
  have hconf : st.rws.confluent = true := hInv (by rw [hsg]; rfl)
  have hinit : st.init M = some st := init_of_isSome M st (by rw [hsg]; rfl)
  have heq : st.current_equals M w w' =
      some ((if M.nf w = M.nf w' then Result.TRUE else Result.FALSE), st) := by
    simp [KBFP.current_equals, hinit, KBFP.is_killed, hk, RWS.is_confluent, hconf,
      RWS.rewrite, RWS.word_to_rws_word]
  rw [heq, w2ci_done M st s w hd hsg, w2ci_done M st s w' hd hsg]
  constructor
  · intro hidx
    have hm : M.nf w ∈ M.enumOrder.take s.size := by rw [htake]; exact hc w hw
    have hm' : M.nf w' ∈ M.enumOrder.take s.size := by rw [htake]; exact hc w' hw'
    have h1 := idxOf?_isSome_of_mem _ _ hm
    have h2 := idxOf?_isSome_of_mem _ _ hm'
    cases hio : idxOf? (M.enumOrder.take s.size) (M.nf w) with
    | none => rw [hio] at h1; simp at h1
    | some i =>
      cases hio' : idxOf? (M.enumOrder.take s.size) (M.nf w') with
      | none => rw [hio'] at h2; simp at h2
      | some j =>
        rw [hio, hio'] at hidx
        injection hidx with hij
        subst hij
        have g1 := idxOf?_getElem _ _ _ hio
        have g2 := idxOf?_getElem _ _ _ hio'
        rw [g1] at g2
        injection g2 with g2
        simp [g2]
  · intro hT
    have hfst : (if M.nf w = M.nf w' then Result.TRUE else Result.FALSE) =
        Result.TRUE := by
      injection hT with hT
      exact congrArg Prod.fst hT
    by_cases hnf : M.nf w = M.nf w'
    · rw [hnf]
    · rw [if_neg hnf] at hfst
      exact Result.noConfusion hfst

/-- C3 witness: two concrete words with the same canonical form receive
the same class index on a concrete done instance. -/
theorem class_index_consistent_with_equals_witness :
    KBFP.word_to_class_index M0 stI [] = KBFP.word_to_class_index M0 stI [0] :=
  (class_index_consistent_with_equals M0 stI [] [0]
    (fun w _ => by simp [M0]) (by decide) (by decide) (by decide)
    (by intro hs; exact rfl)).mpr (by decide)

/-! ### The unbounded run as iteration of the bounded run -/

theorem runFull_iter_stop (M : Model) (st : KBFP)
    (hc : (st.killed || st.is_done M) = true) :
    (∃ k, ∀ m, k ≤ m → runSpecIter M m st = st.runFull M) ∧
    (∀ st', st.runFull M = some st' →
      st'.killed = true ∨ st'.is_done M = true) := by
  have hstop := runFull_stop M st hc
  refine ⟨⟨0, fun m _ => (runSpecIter_stop M st hc m).trans hstop.symm⟩, ?_⟩
  intro st' hst'
  rw [hstop] at hst'
  injection hst' with hst'
  subst hst'
  exact (Bool.or_eq_true _ _).mp hc

theorem runFull_iter_aux (n : Nat) : ∀ (M : Model) (st : KBFP),
    loopMeasure M st ≤ n →
    (∃ k, ∀ m, k ≤ m → runSpecIter M m st = st.runFull M) ∧
    (∀ st', st.runFull M = some st' →
      st'.killed = true ∨ st'.is_done M = true) := by
  induction n with
  | zero =>
    intro M st hn
    by_cases hc : (st.killed || st.is_done M) = true
    · exact runFull_iter_stop M st hc
    · exfalso
      have hcf : (st.killed || st.is_done M) = false := by
        cases hv : st.killed || st.is_done M
        · rfl
        · exact absurd hv hc
      have hk : st.killed = false := by
        cases hkv : st.killed
        · rfl
        · rw [hkv] at hcf; simp at hcf
      have hd : st.is_done M = false := by
        cases hdv : st.is_done M
        · rfl
        · rw [hdv] at hcf; simp at hcf
      cases hsg : st.semigroup with
      | none =>
        simp only [loopMeasure, hsg] at hn
        omega
      | some s =>
        have hlt : s.size < M.enumOrder.length := by
          simp [KBFP.is_done, hsg, hk, Semigroup.closed] at hd
          exact hd
        simp only [loopMeasure, hsg] at hn
        omega
  | succ n ih =>
    intro M st hn
    by_cases hc : (st.killed || st.is_done M) = true
    · exact runFull_iter_stop M st hc
    · have hcf : (st.killed || st.is_done M) = false := by
        cases hv : st.killed || st.is_done M
        · rfl
        · exact absurd hv hc
      have hk : st.killed = false := by
        cases hkv : st.killed
        · rfl
        · rw [hkv] at hcf; simp at hcf
      have hd : st.is_done M = false := by
        cases hdv : st.is_done M
        · rfl
        · rw [hdv] at hcf; simp at hcf
      cases h2 : st.run M LIMIT_MAX with
      | none =>
        have hrn := runFull_none M st hcf h2
        refine ⟨⟨1, ?_⟩, ?_⟩
        · intro m hm
          cases m with
          | zero => omega
          | succ m' => simp [runSpecIter, hcf, h2, hrn]
        · intro st' hst'
          rw [hrn] at hst'
          exact Option.noConfusion hst'
      | some st'' =>
        have hrg := runFull_go M st st'' hcf h2
        have hdec := run_measure_lt M LIMIT_MAX st st'' hk hd h2
        obtain ⟨⟨k, hkk⟩, hfin⟩ := ih M st'' (by omega)
        refine ⟨⟨k + 1, ?_⟩, ?_⟩
        · intro m hm
          cases m with
          | zero => omega
          | succ m' =>
            have hm' : k ≤ m' := by omega
            rw [hrg]
            simp only [runSpecIter, hcf, Bool.false_eq_true, if_false, h2]
            exact hkk m' hm'
        · intro st' hst'
          rw [hrg] at hst'
          exact hfin st' hst'

/-- C8: the unbounded run stops immediately once the cancellation signal
is observed, equals a finite iteration of the bounded run with the
largest step budget, and can only stop with the signal set or the
instance done. -/
theorem run_unbounded_iterates_bounded (M : Model) (st : KBFP) :
    (st.killed = true → st.runFull M = some st) ∧
    (∃ k, ∀ m, k ≤ m → runSpecIter M m st = st.runFull M) ∧
    (∀ st', st.runFull M = some st' →
      st'.killed = true ∨ st'.is_done M = true) := by
  obtain ⟨h1, h2⟩ := runFull_iter_aux (loopMeasure M st) M st le_rfl
  exact ⟨fun hk => runFull_stop M st (by rw [hk]; rfl), h1, h2⟩

/-- C8 witness: the unbounded run on a cancelled concrete state returns
it unchanged at the first iteration boundary. -/
theorem run_unbounded_iterates_bounded_witness :
    KBFP.runFull M0 (KBFP.kill KBFP.initial) =
      some (KBFP.kill KBFP.initial) :=
  (run_unbounded_iterates_bounded M0 (KBFP.kill KBFP.initial)).1 rfl

end Libsemigroups
